import Mathlib

/-!
Verification of the frp-multiuser credential service (src/lib/server.go).

Strings are modelled as `List Char` (`GoStr`); Go maps as insertion-ordered
association lists with update-in-place on duplicate keys (`GoMap`), matching
Go's `map[string]string` observable behaviour (`m[k]` returns the zero value
`""` on a missing key).  File I/O is modelled by passing the outcome of the
read (`Except error content`) explicitly.
-/

namespace FrpMultiuser

abbrev GoStr := List Char

/-- Go's `unicode.IsSpace`: the Unicode White_Space property. -/
def isGoSpace (c : Char) : Bool :=
  c = ' ' || c = '\t' || c = '\n' || c = '\x0b' || c = '\x0c' || c = '\r' ||
  c = '\x85' || c = '\xa0' || c = '\u1680' ||
  ('\u2000' ≤ c && c ≤ '\u200A') ||
  c = '\u2028' || c = '\u2029' || c = '\u202F' || c = '\u205F' || c = '\u3000'

/-- Drop the longest suffix of characters satisfying `p`
(the right-hand analogue of `List.dropWhile`). -/
def dropWhileRight (p : Char → Bool) : GoStr → GoStr
  | [] => []
  | c :: cs =>
    let rest := dropWhileRight p cs
    if rest = [] && p c then [] else c :: rest

/-- Go `strings.TrimSpace`. -/
def trimSpace (s : GoStr) : GoStr :=
  (dropWhileRight isGoSpace s).dropWhile isGoSpace

/-- Go `strings.TrimRight(s, "\r")`. -/
def trimRightCR (s : GoStr) : GoStr :=
  dropWhileRight (fun c => c = '\r') s

/-- Go `strings.Split(s, sep)` for a one-character separator. -/
def splitOnChar (c : Char) : GoStr → List GoStr
  | [] => [[]]
  | x :: xs =>
    if x = c then [] :: splitOnChar c xs
    else
      match splitOnChar c xs with
      | [] => [[x]]
      | l :: ls => (x :: l) :: ls

/-- Go `strings.SplitN(s, sep, 2)` for a one-character separator, as the
pair (part before the first `c`, part after it).  When `c` does not occur
the second component is `[]` (the code only uses the result when it does). -/
def splitFirst (c : Char) : GoStr → GoStr × GoStr
  | [] => ([], [])
  | x :: xs =>
    if x = c then ([], xs)
    else
      let r := splitFirst c xs
      (x :: r.1, r.2)

/-- Go `map[string]string`, as an insertion-ordered association list with
unique keys. -/
abbrev GoMap := List (GoStr × GoStr)

/-- Go map assignment `m[k] = v`: update in place if the key is present,
append otherwise. -/
def goMapInsert (m : GoMap) (k v : GoStr) : GoMap :=
  match m with
  | [] => [(k, v)]
  | (k', v') :: rest =>
    if k' = k then (k, v) :: rest else (k', v') :: goMapInsert rest k v

/-- Go map lookup `v, ok := m[k]` (the `ok`-carrying form). -/
def goMapFind (m : GoMap) (k : GoStr) : Option GoStr :=
  (m.find? (fun p => p.1 == k)).map Prod.snd

/-- Go map lookup `m[k]`: zero value `""` when the key is absent. -/
def goMapGet (m : GoMap) (k : GoStr) : GoStr :=
  (goMapFind m k).getD []

/-- The per-line body of `readAuthFile`'s loop (server.go:102-109):
if the row contains `=`, split at the first `=`; if the trimmed value is
non-empty, store trimmed-key ↦ trimmed-value. -/
def processRow (acc : GoMap) (row : GoStr) : GoMap :=
  if '=' ∈ row then
    let kvs := splitFirst '=' row
    if trimSpace kvs.2 ≠ [] then
      goMapInsert acc (trimSpace kvs.1) (trimSpace kvs.2)
    else acc
  else acc

/-- Function `readAuthFile` (server.go:94-111) applied to successfully read file
content: strip trailing carriage returns from the whole buffer, split on
newline, process each row. -/
def readAuthContent (content : GoStr) : GoMap :=
  (splitOnChar '\n' (trimRightCR content)).foldl processRow []

/-- Function `readAuthFile` (server.go:94-111) with the outcome of `os.ReadFile`
passed explicitly: a read error is returned as-is; otherwise the parsed
map is returned with a nil error. -/
def readAuthFile (file : Except GoStr GoStr) : Except GoStr GoMap :=
  match file with
  | .error e => .error e
  | .ok content => .ok (readAuthContent content)

/-- Structure `plugin.Response` (spec §6): `{"reject": bool, "reject_reason": string,
"unchange": bool}`. -/
structure PluginResponse where
  Reject : Bool := false
  RejectReason : GoStr := []
  Unchange : Bool := false
deriving DecidableEq, Repr

/-- Structure `plugin.LoginContent`, restricted to the two fields the handler reads:
`User` and the metadata map `Metas`. -/
structure LoginContent where
  User : GoStr
  Metas : GoMap
deriving DecidableEq, Repr

def passwordKey : GoStr := "password".data

def emptyReason : GoStr := "user or meta password can not be empty".data

def invalidReason (user : GoStr) : GoStr :=
  "user: \x60".data ++ user ++ "\x60 invalid password".data

def unchangedResponse : PluginResponse :=
  { Reject := false, RejectReason := [], Unchange := true }

def rejectResponse (reason : GoStr) : PluginResponse :=
  { Reject := true, RejectReason := reason, Unchange := false }

/-- The decision logic of `Handler` (server.go:156-179) on a decoded
request: extract `user` and `password := Metas["password"]`; empty user or
password rejects with `emptyReason`; otherwise compare `m.Data[user]`
against the password. -/
def handlerDecision (m : GoMap) (lc : LoginContent) : PluginResponse :=
  let user := lc.User
  let password := goMapGet lc.Metas passwordKey
  if user = [] ∨ password = [] then rejectResponse emptyReason
  else if goMapGet m user = password then unchangedResponse
  else rejectResponse (invalidReason user)

/-- The body `{"msg": "<error>"}` written on read/decode/encode failure. -/
def jsonMsg (e : GoStr) : GoStr :=
  "\x7b\"msg\": \"".data ++ e ++ "\"\x7d".data

/-- An HTTP response: status code and body. -/
structure HttpOut where
  status : Nat
  body : GoStr
deriving DecidableEq, Repr

/-- Function `Handler` (server.go:138-189).  The outcomes of the body read, of
`json.Unmarshal` and of `json.Marshal` are passed explicitly.  The result
pairs the HTTP response with the authorization decision produced along the
way (`none` when the handler returned before constructing one). -/
def Handler (m : GoMap) (readBody : Except GoStr GoStr)
    (unmarshal : GoStr → Except GoStr LoginContent)
    (marshal : PluginResponse → Except GoStr GoStr) :
    HttpOut × Option PluginResponse :=
  match readBody with
  | .error e => (⟨500, jsonMsg e⟩, none)
  | .ok bytes =>
    match unmarshal bytes with
    | .error e => (⟨400, jsonMsg e⟩, none)
    | .ok lc =>
      let resp := handlerDecision m lc
      match marshal resp with
      | .error e => (⟨500, jsonMsg e⟩, some resp)
      | .ok out => (⟨200, out⟩, some resp)

/-! ### Reload coordinator (server.go:63-80)

The coordinator goroutine is a loop that waits on `ctx.Done()` and
`m.RefreshChan`.  It is modelled as a step function over the sequence of
events it observes: `cancel` (the context fires) or `refresh file` (a
signal arrives and re-reading the file gives outcome `file`). -/

inductive CoordEvent where
  | cancel : CoordEvent
  | refresh : Except GoStr GoStr → CoordEvent

/-- The coordinator's observable state: the store's current mapping
(`m.Data`) and whether the loop has returned. -/
structure CoordState where
  data : GoMap
  done : Bool
deriving DecidableEq

/-- One iteration of the coordinator loop (server.go:65-79): on `cancel`
return; on a refresh signal re-read the auth file, and on a read error log
and `continue` (the mapping is untouched), otherwise install the new
mapping. -/
def coordStep (s : CoordState) (e : CoordEvent) : CoordState :=
  if s.done then s
  else
    match e with
    | .cancel => ⟨s.data, true⟩
    | .refresh file =>
      match readAuthFile file with
      | .error _ => s
      | .ok newMap => ⟨newMap, s.done⟩

/-- The coordinator loop run over a finite sequence of observed events. -/
def coordRun (s : CoordState) (evs : List CoordEvent) : CoordState :=
  evs.foldl coordStep s

/-! ### File watcher (server.go:113-136) -/

/-- An fsnotify event class. -/
inductive FsOp where
  | write : FsOp
  | create : FsOp
  | remove : FsOp
  | rename : FsOp
  | chmod : FsOp
deriving DecidableEq

/-- An event observed by the watcher loop: cancellation or a file-system
event of some class. -/
inductive WatchEvent where
  | cancel : WatchEvent
  | fsEvent : FsOp → WatchEvent
deriving DecidableEq

/-- The observable outcome of running the watcher loop: how many
ReloadSignals were sent on the refresh channel, whether the loop returned
(it only ever returns `nil`), and whether the deferred `w.Close()` ran. -/
structure WatchOutcome where
  signals : Nat
  returnedNil : Bool
  closed : Bool
deriving DecidableEq

/-- The watcher loop of `inotifyAuthFile` (server.go:123-135) over a finite
sequence of observed events: `ctx.Done()` makes it return `nil` (running
the deferred `w.Close()`); a `Write` event enqueues one signal; every other
event class hits the empty `default` branch.  If the event sequence is
exhausted without a cancel, the loop is still blocked in `select`. -/
def inotifyLoop : List WatchEvent → WatchOutcome
  | [] => ⟨0, false, false⟩
  | .cancel :: _ => ⟨0, true, true⟩
  | .fsEvent op :: rest =>
    let o := inotifyLoop rest
    ⟨(if op = FsOp.write then 1 else 0) + o.signals, o.returnedNil, o.closed⟩

/-! ### Spec-side description of the loader (for the refinement claim C2)

The spec describes `Load` extensionally: the mapping contains exactly the
entries of the `=`-bearing lines, first-`=`-split, trimmed, with empty
trimmed values skipped, and the last occurrence of a duplicate key wins. -/

/-- Spec-side reading of one line ("a line is a candidate entry only if it
contains `=`; split at the first `=`; trim both sides; skip if the trimmed
value is empty"). -/
def specEntryOfLine (row : GoStr) : Option (GoStr × GoStr) :=
  if '=' ∈ row then
    let k := trimSpace (splitFirst '=' row).1
    let v := trimSpace (splitFirst '=' row).2
    if v = [] then none else some (k, v)
  else none

/-- Spec-side lookup in the loaded mapping: among the entries of all
candidate lines, the value of the last entry bearing key `k` ("last
duplicate key wins"), if any. -/
def specLoadFind (content k : GoStr) : Option GoStr :=
  ((((splitOnChar '\n' (trimRightCR content)).filterMap
      specEntryOfLine).reverse.find? (fun p => p.1 == k)).map Prod.snd)

/-! ### CRLF normalisation (for claim C10) -/

/-- Rewrite a text with LF line endings into the same text with CRLF line
endings: every `'\n'` becomes `"\r\n"`. -/
def crlfOfLf : GoStr → GoStr
  | [] => []
  | c :: cs => if c = '\n' then '\r' :: '\n' :: crlfOfLf cs
               else c :: crlfOfLf cs

/-- Apply `f` to every element of a list except the last one. -/
def mapButLast (f : GoStr → GoStr) : List GoStr → List GoStr
  | [] => []
  | [a] => [a]
  | a :: b :: rest => f a :: mapButLast f (b :: rest)

/-! ## Helper lemmas -/

theorem goMapFind_nil (k : GoStr) : goMapFind [] k = none := rfl

theorem goMapFind_cons (a : GoStr × GoStr) (rest : GoMap) (k : GoStr) :
    goMapFind (a :: rest) k =
      if a.1 = k then some a.2 else goMapFind rest k := by
  by_cases h : a.1 = k
  · simp [goMapFind, List.find?_cons, h]
  · simp [goMapFind, List.find?_cons, h]

theorem goMapFind_insert (m : GoMap) (k v k' : GoStr) :
    goMapFind (goMapInsert m k v) k' =
      if k = k' then some v else goMapFind m k' := by
  induction m with
  | nil => simp [goMapInsert, goMapFind_cons, goMapFind_nil]
  | cons a rest ih =>
    by_cases hak : a.1 = k
    · simp only [goMapInsert, hak, if_pos]
      by_cases hkk : k = k'
      · simp [goMapFind_cons, hkk]
      · have : a.1 ≠ k' := by rw [hak]; exact hkk
        simp [goMapFind_cons, hkk, hak, this]
    · simp only [goMapInsert, hak, if_neg, not_false_iff]
      by_cases hak' : a.1 = k'
      · have hkk : ¬ k = k' := by
          intro h; exact hak (h ▸ hak')
        simp [goMapFind_cons, hak', hkk]
      · simp [goMapFind_cons, hak', ih]

theorem unchanged_ne_reject (r : GoStr) :
    unchangedResponse ≠ rejectResponse r := by
  intro h
  have : unchangedResponse.Reject = (rejectResponse r).Reject := by rw [h]
  simp [unchangedResponse, rejectResponse] at this

/-! ## Claims about the handler decision -/

/-- Claim C1: for every decoded login request with non-empty user and
non-empty password, the handler allows (Unchanged) exactly when the stored
password under the user equals the supplied password, and otherwise rejects
with reason `"user: \x60<user>\x60 invalid password"`. -/
theorem claim_C1 (m : GoMap) (lc : LoginContent)
    (hu : lc.User ≠ []) (hp : goMapGet lc.Metas passwordKey ≠ []) :
    (handlerDecision m lc = unchangedResponse ↔
      goMapGet m lc.User = goMapGet lc.Metas passwordKey) ∧
    (goMapGet m lc.User ≠ goMapGet lc.Metas passwordKey →
      handlerDecision m lc = rejectResponse (invalidReason lc.User)) := by
  have hne : ¬ (lc.User = [] ∨ goMapGet lc.Metas passwordKey = []) := by
    rintro (h | h)
    · exact hu h
    · exact hp h
  by_cases hc : goMapGet m lc.User = goMapGet lc.Metas passwordKey
  · refine ⟨⟨fun _ => hc, fun _ => ?_⟩, fun h => absurd hc h⟩
    simp [handlerDecision, hne, hc]
  · refine ⟨⟨fun h => ?_, fun h => absurd h hc⟩, fun _ => ?_⟩
    · exfalso
      have : handlerDecision m lc = rejectResponse (invalidReason lc.User) := by
        simp [handlerDecision, hne, hc]
      rw [this] at h
      exact unchanged_ne_reject _ h.symm
    · simp [handlerDecision, hne, hc]

/-- Witness for C1 at the store `{"alice": "secret"}` and the matching
request. -/
theorem claim_C1_witness :
    handlerDecision [("alice".data, "secret".data)]
        ⟨"alice".data, [("password".data, "secret".data)]⟩ =
      unchangedResponse :=
  (claim_C1 [("alice".data, "secret".data)]
      ⟨"alice".data, [("password".data, "secret".data)]⟩
      (by decide) (by decide)).1.mpr (by decide)

/-- Claim C3: a request with empty user or empty metas password is rejected
with reason `"user or meta password can not be empty"`, whatever the other
field holds, and without consulting the credential mapping (the result does
not depend on it). -/
theorem claim_C3 (m : GoMap) (lc : LoginContent)
    (h : lc.User = [] ∨ goMapGet lc.Metas passwordKey = []) :
    handlerDecision m lc = rejectResponse emptyReason ∧
    (∀ m' : GoMap, handlerDecision m' lc = handlerDecision m lc) := by
  constructor
  · simp [handlerDecision, h]
  · intro m'
    simp [handlerDecision, h]

/-- Witness for C3 at an empty user with a non-empty password. -/
theorem claim_C3_witness :
    handlerDecision [("alice".data, "secret".data)]
        ⟨[], [("password".data, "secret".data)]⟩ =
      rejectResponse emptyReason :=
  (claim_C3 [("alice".data, "secret".data)]
      ⟨[], [("password".data, "secret".data)]⟩ (Or.inl rfl)).1

/-- Claim C7: every decision the handler produces sets exactly one of the
two fields: Unchange with no reject reason, or Reject with a non-empty
reason; never both and never neither. -/
theorem claim_C7 (m : GoMap) (lc : LoginContent) :
    ((handlerDecision m lc).Unchange = true ∧
     (handlerDecision m lc).Reject = false ∧
     (handlerDecision m lc).RejectReason = []) ∨
    ((handlerDecision m lc).Reject = true ∧
     (handlerDecision m lc).RejectReason ≠ [] ∧
     (handlerDecision m lc).Unchange = false) := by
  by_cases he : lc.User = [] ∨ goMapGet lc.Metas passwordKey = []
  · right
    simp [handlerDecision, he, rejectResponse, emptyReason]
  · by_cases hc : goMapGet m lc.User = goMapGet lc.Metas passwordKey
    · left
      simp [handlerDecision, he, hc, unchangedResponse]
    · right
      simp [handlerDecision, he, hc, rejectResponse, invalidReason]

/-- Claim C4: a request whose body is read successfully but fails to decode
as the JSON envelope gets HTTP 400 with body `\x7b"msg": "<error>"\x7d`, and
no authorization decision is produced. -/
theorem claim_C4 (m : GoMap) (body : GoStr)
    (unmarshal : GoStr → Except GoStr LoginContent)
    (marshal : PluginResponse → Except GoStr GoStr)
    (e : GoStr) (h : unmarshal body = .error e) :
    Handler m (.ok body) unmarshal marshal = (⟨400, jsonMsg e⟩, none) := by
  simp [Handler, h]

/-- Witness for C4 at a decoder that fails on the given body. -/
theorem claim_C4_witness :
    Handler [] (.ok "notjson".data)
        (fun _ => .error "invalid character".data) (fun _ => .ok []) =
      (⟨400, jsonMsg "invalid character".data⟩, none) :=
  claim_C4 [] "notjson".data _ _ "invalid character".data rfl

/-- Claim C8: the loader fails exactly when the file read fails, and then
returns the propagated I/O error; a successful read always yields a mapping
(malformed lines never fail the load). -/
theorem claim_C8 (file : Except GoStr GoStr) :
    ((∃ e, readAuthFile file = .error e) ↔ (∃ e, file = .error e)) ∧
    (∀ e, file = .error e → readAuthFile file = .error e) ∧
    (∀ content, file = .ok content →
      readAuthFile file = .ok (readAuthContent content)) := by
  cases file with
  | error e => simp [readAuthFile]
  | ok c => simp [readAuthFile]

/-- Witness for C8: a failed read propagates its error; content made of a
single malformed line still loads, to the empty mapping. -/
theorem claim_C8_witness :
    readAuthFile (.error "open tokens: no such file".data) =
      .error "open tokens: no such file".data ∧
    readAuthFile (.ok "noequals\n".data) = .ok ([] : GoMap) :=
  ⟨(claim_C8 (.error "open tokens: no such file".data)).2.1 _ rfl,
   ((claim_C8 (.ok "noequals\n".data)).2.2 _ rfl).trans
     (congrArg Except.ok (by decide))⟩

/-- On a refresh event the coordinator never finishes, whatever the read
outcome. -/
theorem coordStep_refresh_done (s : CoordState) (f : Except GoStr GoStr)
    (h : s.done = false) :
    (coordStep s (CoordEvent.refresh f)).done = false := by
  cases f with
  | error e => simp [coordStep, readAuthFile, h]
  | ok c => simp [coordStep, readAuthFile, h]

/-- A run of the coordinator loop from a live state finishes only if a
cancellation occurs in it. -/
theorem coordRun_done (evs : List CoordEvent) :
    ∀ s : CoordState, s.done = false → (coordRun s evs).done = true →
      CoordEvent.cancel ∈ evs := by
  induction evs with
  | nil =>
    intro s h hrun
    rw [coordRun, List.foldl_nil] at hrun
    rw [h] at hrun
    exact absurd hrun (by simp)
  | cons e rest ih =>
    intro s h hrun
    cases e with
    | cancel => exact List.mem_cons_self _ _
    | refresh f =>
      rw [coordRun, List.foldl_cons] at hrun
      exact List.mem_cons_of_mem _
        (ih _ (coordStep_refresh_done s f h) hrun)

/-- Claim C5: from a live coordinator state, a reload cycle whose file read
fails leaves the state (in particular the installed mapping) unchanged; a
step finishes the loop exactly on cancellation; and a whole run finishes
only if it contains a cancellation. -/
theorem claim_C5 (s : CoordState) (h : s.done = false) :
    (∀ err : GoStr, coordStep s (CoordEvent.refresh (.error err)) = s) ∧
    (∀ e : CoordEvent, (coordStep s e).done = true ↔ e = CoordEvent.cancel) ∧
    (∀ evs : List CoordEvent, (coordRun s evs).done = true →
      CoordEvent.cancel ∈ evs) := by
  refine ⟨?_, ?_, fun evs => coordRun_done evs s h⟩
  · intro err
    simp [coordStep, readAuthFile, h]
  · intro e
    cases e with
    | cancel => simp [coordStep, h]
    | refresh f =>
      rw [coordStep_refresh_done s f h]
      simp

/-- Witness for C5 at the empty live state. -/
theorem claim_C5_witness :
    coordStep ⟨[], false⟩ (CoordEvent.refresh (.error "err".data)) =
      ⟨[], false⟩ ∧
    (coordStep ⟨[], false⟩ CoordEvent.cancel).done = true := by
  have h := claim_C5 ⟨[], false⟩ rfl
  exact ⟨h.1 _, (h.2.1 _).mpr rfl⟩

/-- Claim C9: the watcher loop enqueues exactly one signal per Write event
seen before the first cancellation and none for any other event class, it
returns (with a nil error) exactly when a cancellation occurs, and it has
released the watcher (deferred close) exactly when it has returned. -/
theorem claim_C9 (evs : List WatchEvent) :
    (inotifyLoop evs).signals =
      (evs.takeWhile (fun e => !(e == WatchEvent.cancel))).countP
        (fun e => e == WatchEvent.fsEvent FsOp.write) ∧
    ((inotifyLoop evs).returnedNil = true ↔ WatchEvent.cancel ∈ evs) ∧
    (inotifyLoop evs).closed = (inotifyLoop evs).returnedNil := by
  induction evs with
  | nil => simp [inotifyLoop]
  | cons e rest ih =>
    cases e with
    | cancel => simp [inotifyLoop, List.takeWhile_cons]
    | fsEvent op =>
      refine ⟨?_, ?_, ?_⟩
      · rw [show inotifyLoop (WatchEvent.fsEvent op :: rest) =
            ⟨(if op = FsOp.write then 1 else 0) + (inotifyLoop rest).signals,
             (inotifyLoop rest).returnedNil, (inotifyLoop rest).closed⟩ from rfl]
        simp only [List.takeWhile_cons, List.countP_cons, ih.1]
        by_cases hw : op = FsOp.write
        · simp [hw, Nat.add_comm]
        · have : ¬ (WatchEvent.fsEvent op = WatchEvent.fsEvent FsOp.write) := by
            simp [hw]
          simp [hw, this]
      · rw [show (inotifyLoop (WatchEvent.fsEvent op :: rest)).returnedNil =
            (inotifyLoop rest).returnedNil from rfl]
        rw [ih.2.1]
        simp
      · exact ih.2.2

/-- Witness for C9 at a trace with one write, one chmod, then cancellation. -/
theorem claim_C9_witness :
    (inotifyLoop [WatchEvent.fsEvent FsOp.write, WatchEvent.fsEvent FsOp.chmod,
        WatchEvent.cancel]).signals = 1 ∧
    (inotifyLoop [WatchEvent.fsEvent FsOp.write, WatchEvent.fsEvent FsOp.chmod,
        WatchEvent.cancel]).returnedNil = true := by
  have h := claim_C9 [WatchEvent.fsEvent FsOp.write,
    WatchEvent.fsEvent FsOp.chmod, WatchEvent.cancel]
  exact ⟨h.1.trans (by decide), h.2.1.mpr (by decide)⟩

/-! ## Loader refinement lemmas (for C2 and C6) -/

/-- Left-biased choice on options. -/
def oor {α : Type} (a b : Option α) : Option α :=
  match a with
  | some v => some v
  | none => b

theorem oor_none_right {α : Type} (a : Option α) : oor a none = a := by
  cases a <;> rfl

theorem oor_assoc {α : Type} (a b c : Option α) :
    oor (oor a b) c = oor a (oor b c) := by
  cases a <;> rfl

theorem oor_map {α β : Type} (f : α → β) (a b : Option α) :
    (oor a b).map f = oor (a.map f) (b.map f) := by
  cases a <;> rfl

theorem find?_append {α : Type} (l₁ l₂ : List α) (p : α → Bool) :
    (l₁ ++ l₂).find? p = oor (l₁.find? p) (l₂.find? p) := by
  induction l₁ with
  | nil => rfl
  | cons a l ih =>
    by_cases h : p a
    · simp [List.find?_cons_of_pos _ h, oor]
    · rw [List.cons_append, List.find?_cons_of_neg _ h,
        List.find?_cons_of_neg _ h, ih]

/-- The loop body of `readAuthFile` performs exactly the insertion the spec
describes for the line's candidate entry. -/
theorem processRow_eq (acc : GoMap) (row : GoStr) :
    processRow acc row =
      match specEntryOfLine row with
      | some e => goMapInsert acc e.1 e.2
      | none => acc := by
  by_cases h : '=' ∈ row
  · by_cases hv : trimSpace (splitFirst '=' row).2 = []
    · simp [processRow, specEntryOfLine, h, hv]
    · simp [processRow, specEntryOfLine, h, hv]
  · simp [processRow, specEntryOfLine, h]

theorem goMapFind_processRow (acc : GoMap) (row k : GoStr) :
    goMapFind (processRow acc row) k =
      oor ((specEntryOfLine row).bind
            (fun e => if e.1 = k then some e.2 else none))
          (goMapFind acc k) := by
  rw [processRow_eq]
  cases he : specEntryOfLine row with
  | none => rfl
  | some e =>
    show goMapFind (goMapInsert acc e.1 e.2) k = _
    rw [goMapFind_insert]
    by_cases hk : e.1 = k
    · simp [hk, Option.bind, oor]
    · simp [hk, Option.bind, oor]

theorem goMapFind_foldl (rows : List GoStr) :
    ∀ (acc : GoMap) (k : GoStr),
      goMapFind (rows.foldl processRow acc) k =
        oor (((rows.filterMap specEntryOfLine).reverse.find?
                (fun p => p.1 == k)).map Prod.snd)
            (goMapFind acc k) := by
  induction rows with
  | nil =>
    intro acc k
    simp [oor]
  | cons r rs ih =>
    intro acc k
    rw [List.foldl_cons, ih, goMapFind_processRow]
    cases he : specEntryOfLine r with
    | none =>
      rw [List.filterMap_cons_none he]
      rfl
    | some e =>
      rw [List.filterMap_cons_some he, List.reverse_cons,
        find?_append, oor_map, oor_assoc]
      have hsingle : (([e] : List (GoStr × GoStr)).find?
            (fun p => p.1 == k)).map Prod.snd =
          (some e).bind (fun e => if e.1 = k then some e.2 else none) := by
        by_cases hk : e.1 = k
        · have : (e.1 == k) = true := by simp [hk]
          simp [List.find?_cons_of_pos _ this, hk, Option.bind]
        · have : ¬ ((e.1 == k) = true) := by simp [hk]
          simp [List.find?_cons_of_neg _ this, hk, Option.bind]
      rw [hsingle]

/-- Lookup in the map built by the loader agrees with the spec-side
description of the load. -/
theorem readAuthContent_find (content k : GoStr) :
    goMapFind (readAuthContent content) k = specLoadFind content k := by
  rw [readAuthContent, goMapFind_foldl, specLoadFind, goMapFind_nil,
    oor_none_right]

/-- A candidate entry never carries an empty value. -/
theorem specEntry_value_ne_nil (row : GoStr) (e : GoStr × GoStr)
    (h : specEntryOfLine row = some e) : e.2 ≠ [] := by
  unfold specEntryOfLine at h
  by_cases hc : '=' ∈ row
  · simp only [hc, if_pos] at h
    by_cases hv : trimSpace (splitFirst '=' row).2 = []
    · simp [hv] at h
    · simp only [hv, if_neg, not_false_iff] at h
      obtain rfl := Option.some.inj h
      exact hv
  · simp [hc] at h

/-- The loader never stores an empty password value. -/
theorem readAuthContent_value_ne_nil (content k v : GoStr)
    (h : goMapFind (readAuthContent content) k = some v) : v ≠ [] := by
  rw [readAuthContent_find, specLoadFind] at h
  cases hf : (((splitOnChar '\n' (trimRightCR content)).filterMap
      specEntryOfLine).reverse.find? (fun p => p.1 == k)) with
  | none => rw [hf] at h; simp at h
  | some p =>
    rw [hf] at h
    have hpv : p.2 = v := by
      simpa using h
    have hp := List.mem_of_find?_eq_some hf
    rw [List.mem_reverse] at hp
    obtain ⟨row, _, hentry⟩ := List.mem_filterMap.mp hp
    exact hpv ▸ specEntry_value_ne_nil row p hentry

/-- Claim C2: lookup in the loaded mapping is exactly the spec's
description (entries of `=`-bearing lines, first-`=`-split, trimmed,
empty trimmed values skipped, last duplicate key wins), and the four
concrete example loads of the spec hold. -/
theorem claim_C2 :
    (∀ content k : GoStr,
      goMapFind (readAuthContent content) k = specLoadFind content k) ∧
    readAuthContent "key=value\n".data = [("key".data, "value".data)] ∧
    readAuthContent "a=b=c\n".data = [("a".data, "b=c".data)] ∧
    readAuthContent "novalue=\n".data = [] ∧
    readAuthContent "noequals\n".data = [] :=
  ⟨readAuthContent_find, by decide, by decide, by decide, by decide⟩

/-- Claim C6: a non-empty-credentials request for a user absent from the
mapping is rejected with the invalid-password reason (the Go map lookup
yields the zero value `""`, which cannot equal the non-empty password),
and the loader never stores an empty password value. -/
theorem claim_C6 (m : GoMap) (lc : LoginContent)
    (hu : lc.User ≠ []) (hp : goMapGet lc.Metas passwordKey ≠ [])
    (habs : goMapFind m lc.User = none) :
    handlerDecision m lc = rejectResponse (invalidReason lc.User) ∧
    (∀ content k v : GoStr,
      goMapFind (readAuthContent content) k = some v → v ≠ []) := by
  refine ⟨?_, readAuthContent_value_ne_nil⟩
  have hget : goMapGet m lc.User = [] := by
    rw [goMapGet, habs]; rfl
  have hc : goMapGet m lc.User ≠ goMapGet lc.Metas passwordKey := by
    rw [hget]
    exact fun hh => hp hh.symm
  have hne : ¬ (lc.User = [] ∨ goMapGet lc.Metas passwordKey = []) := by
    rintro (h | h)
    · exact hu h
    · exact hp h
  simp [handlerDecision, hne, hc]

/-- Witness for C6 at the empty store and the user `bob`. -/
theorem claim_C6_witness :
    handlerDecision [] ⟨"bob".data, [("password".data, "pw".data)]⟩ =
      rejectResponse (invalidReason "bob".data) :=
  (claim_C6 [] ⟨"bob".data, [("password".data, "pw".data)]⟩
      (by decide) (by decide) rfl).1

/-! ## CRLF tolerance lemmas (for C10) -/

theorem dropWhileRight_append_single (p : Char → Bool) (w : GoStr) (c : Char)
    (hc : p c = true) : dropWhileRight p (w ++ [c]) = dropWhileRight p w := by
  induction w with
  | nil => simp [dropWhileRight, hc]
  | cons a as ih =>
    simp only [List.cons_append, dropWhileRight, List.append_eq, ih]

theorem trimSpace_append_cr (v : GoStr) :
    trimSpace (v ++ ['\r']) = trimSpace v := by
  rw [trimSpace, trimSpace,
    dropWhileRight_append_single isGoSpace v '\r' (by decide)]

theorem mem_eq_append_cr (row : GoStr) :
    ('=' ∈ row ++ ['\r']) ↔ '=' ∈ row := by
  simp

theorem splitFirst_append (c : Char) (row t : GoStr) (h : c ∈ row) :
    splitFirst c (row ++ t) =
      ((splitFirst c row).1, (splitFirst c row).2 ++ t) := by
  induction row with
  | nil => cases h
  | cons a as ih =>
    by_cases hac : a = c
    · simp [splitFirst, hac]
    · have h' : c ∈ as := by
        rcases List.mem_cons.mp h with he | hm
        · exact absurd he.symm hac
        · exact hm
      simp [splitFirst, hac, ih h']

theorem processRow_append_cr (acc : GoMap) (row : GoStr) :
    processRow acc (row ++ ['\r']) = processRow acc row := by
  by_cases h : '=' ∈ row
  · rw [processRow, processRow, if_pos ((mem_eq_append_cr row).mpr h),
      if_pos h, splitFirst_append '=' row ['\r'] h]
    simp only [trimSpace_append_cr]
  · rw [processRow, processRow, if_neg (fun hm => h ((mem_eq_append_cr row).mp hm)),
      if_neg h]

theorem splitOnChar_ne_nil (c : Char) (s : GoStr) : splitOnChar c s ≠ [] := by
  cases s with
  | nil => simp [splitOnChar]
  | cons x xs =>
    by_cases h : x = c
    · simp [splitOnChar, h]
    · rcases hsp : splitOnChar c xs with _ | ⟨l, ls⟩
      · simp [splitOnChar, h, hsp]
      · simp [splitOnChar, h, hsp]

theorem splitOnChar_crlfOfLf (s : GoStr) :
    splitOnChar '\n' (crlfOfLf s) =
      mapButLast (fun r => r ++ ['\r']) (splitOnChar '\n' s) := by
  induction s with
  | nil => rfl
  | cons c cs ih =>
    obtain ⟨l, ls, hsp⟩ := List.exists_cons_of_ne_nil (splitOnChar_ne_nil '\n' cs)
    by_cases h : c = '\n'
    · subst h
      have hlhs : crlfOfLf ('\n' :: cs) = '\r' :: '\n' :: crlfOfLf cs := by
        simp [crlfOfLf]
      rw [hlhs]
      have h1 : splitOnChar '\n' ('\r' :: '\n' :: crlfOfLf cs) =
          ['\r'] :: splitOnChar '\n' (crlfOfLf cs) := by
        rw [splitOnChar, if_neg (by decide), splitOnChar, if_pos rfl]
      rw [h1, ih, hsp]
      have h2 : splitOnChar '\n' ('\n' :: cs) = [] :: l :: ls := by
        rw [splitOnChar, if_pos rfl, hsp]
      rw [h2]
      rfl
    · have hlhs : crlfOfLf (c :: cs) = c :: crlfOfLf cs := by
        simp [crlfOfLf, h]
      rw [hlhs]
      cases ls with
      | nil =>
        have hcrlf : splitOnChar '\n' (crlfOfLf cs) = [l] := by
          rw [ih, hsp]
          rfl
        have h1 : splitOnChar '\n' (c :: crlfOfLf cs) = [c :: l] := by
          rw [splitOnChar, if_neg h, hcrlf]
        have h2 : splitOnChar '\n' (c :: cs) = [c :: l] := by
          rw [splitOnChar, if_neg h, hsp]
        rw [h1, h2]
        rfl
      | cons l2 ls2 =>
        have hcrlf : splitOnChar '\n' (crlfOfLf cs) =
            (l ++ ['\r']) :: mapButLast (fun r => r ++ ['\r']) (l2 :: ls2) := by
          rw [ih, hsp]
          rfl
        have h1 : splitOnChar '\n' (c :: crlfOfLf cs) =
            (c :: (l ++ ['\r'])) :: mapButLast (fun r => r ++ ['\r']) (l2 :: ls2) := by
          rw [splitOnChar, if_neg h, hcrlf]
        have h2 : splitOnChar '\n' (c :: cs) = (c :: l) :: l2 :: ls2 := by
          rw [splitOnChar, if_neg h, hsp]
        rw [h1, h2]
        rfl

theorem dropWhileRight_eq_self (p : Char → Bool) (s : GoStr)
    (h : ∀ c ∈ s, p c = false) : dropWhileRight p s = s := by
  induction s with
  | nil => rfl
  | cons a as ih =>
    simp only [dropWhileRight]
    rw [ih (fun c hc => h c (List.mem_cons_of_mem _ hc)),
      h a (List.mem_cons_self a as)]
    simp

theorem trimRightCR_no_cr (s : GoStr) (h : '\r' ∉ s) : trimRightCR s = s :=
  dropWhileRight_eq_self _ s (fun c hc => by
    have hne : c ≠ '\r' := fun he => h (he ▸ hc)
    simp [hne])

theorem trimRightCR_crlfOfLf (s : GoStr) (h : '\r' ∉ s) :
    trimRightCR (crlfOfLf s) = crlfOfLf s := by
  induction s with
  | nil => rfl
  | cons c cs ih =>
    have hcs : '\r' ∉ cs := fun hm => h (List.mem_cons_of_mem _ hm)
    have hcr : c ≠ '\r' := fun he => h (he ▸ List.mem_cons_self c cs)
    have ih' : dropWhileRight (fun x => x = '\r') (crlfOfLf cs) = crlfOfLf cs :=
      ih hcs
    by_cases hn : c = '\n'
    · subst hn
      have hl : crlfOfLf ('\n' :: cs) = '\r' :: '\n' :: crlfOfLf cs := by
        simp [crlfOfLf]
      rw [trimRightCR, hl]
      simp only [dropWhileRight, ih']
      simp
    · have hl : crlfOfLf (c :: cs) = c :: crlfOfLf cs := by
        simp [crlfOfLf, hn]
      rw [trimRightCR, hl]
      simp only [dropWhileRight, ih']
      simp [hcr]

theorem foldl_processRow_mapButLast (rows : List GoStr) :
    ∀ acc : GoMap,
      (mapButLast (fun r => r ++ ['\r']) rows).foldl processRow acc =
        rows.foldl processRow acc := by
  induction rows with
  | nil => intro _; rfl
  | cons a rest ih =>
    intro acc
    cases rest with
    | nil => rfl
    | cons b rest2 =>
      rw [mapButLast, List.foldl_cons, List.foldl_cons, processRow_append_cr]
      exact ih (processRow acc a)

/-- Claim C10: loading a text with CRLF line endings yields the same
mapping as loading the same text with LF line endings. -/
theorem claim_C10 (content : GoStr) (h : '\r' ∉ content) :
    readAuthContent (crlfOfLf content) = readAuthContent content := by
  rw [readAuthContent, readAuthContent, trimRightCR_crlfOfLf content h,
    trimRightCR_no_cr content h, splitOnChar_crlfOfLf]
  exact foldl_processRow_mapButLast _ []

/-- Witness for C10 at a two-entry file. -/
theorem claim_C10_witness :
    readAuthContent "a=b\r\nc=d\r\n".data = readAuthContent "a=b\nc=d\n".data := by
  have he : crlfOfLf "a=b\nc=d\n".data = "a=b\r\nc=d\r\n".data := by decide
  rw [← he]
  exact claim_C10 "a=b\nc=d\n".data (by decide)

end FrpMultiuser
